import Mathlib

/-
  A verification development of the pytree engine described by the
  repository's specification: a generic nested-structure traversal engine
  with an extensible node-type registry, flatten/unflatten, structural
  map over several trees, and transpose of nested shapes.

  The engine itself (jax.tree_util) is not part of the surveyed sources;
  only its caller (the pytrees tutorial notebook) is.  The definitions
  below are therefore modelled from the specification, with the
  notebook's recorded outputs used as concrete test points.
-/

/-- Modelled from the spec: a Leaf is "an opaque value the engine never
inspects; any value whose runtime type is not registered as a container is
a leaf".  Atoms stand for such opaque runtime values: integers, strings,
and anonymous objects. -/
inductive Atom where
  | int : Int → Atom
  | str : String → Atom
  | obj : Nat → Atom
deriving DecidableEq

/-- Modelled from the spec: the type identities held by the Node Type
Registry.  "Built-in entries are pre-registered for: ordered finite
sequences, key-sorted mappings ..., and the distinguished empty-value
marker"; lists and tuples are the two distinct registered sequence kinds
seen in the notebook, `ntupleTy cls` is a registered tuple subclass (a
NamedTuple class), and `customTy` is a user-registered container type
(`register_pytree_node`). -/
inductive NodeType where
  | listTy : NodeType
  | tupleTy : NodeType
  | dictTy : NodeType
  | noneTy : NodeType
  | ntupleTy : String → NodeType
  | customTy : Nat → NodeType
deriving DecidableEq

/-- Modelled from the spec: "auxiliary data — information needed to
reconstruct the container that is not itself a child (e.g., a mapping's
key order, a record's type tag/field names)".  It must support equality
comparison. -/
inductive AuxData where
  | unit : AuxData
  | keys : List String → AuxData
  | tag : String → AuxData
deriving DecidableEq

mutual
/-- Modelled from the spec: a nested value.  Children of registered
containers are kept in the order the registered decompose produces,
except for mappings, whose entries are stored as an association list and
key-sorted at decomposition time. -/
inductive PyVal where
  | atom : Atom → PyVal
  | list : PyList → PyVal
  | tuple : PyList → PyVal
  | ntuple : String → PyList → PyVal
  | dict : PyDict → PyVal
  | none : PyVal
  | custom : Nat → AuxData → PyList → PyVal
deriving DecidableEq
/-- An ordered sequence of children. -/
inductive PyList where
  | nil : PyList
  | cons : PyVal → PyList → PyList
deriving DecidableEq
/-- A mapping as an ordered association list of key/value entries. -/
inductive PyDict where
  | nil : PyDict
  | cons : String → PyVal → PyDict → PyDict
deriving DecidableEq
end

mutual
/-- Modelled from the spec: "TreeDef: a recursive, leaf-free mirror of a
Node's shape: for each Node, its registered type identity, its auxiliary
data, and the TreeDefs of its children in order; a leaf position is
represented by a distinguished placeholder." -/
inductive TreeDef where
  | leaf : TreeDef
  | node : NodeType → AuxData → TreeDefList → TreeDef
deriving DecidableEq
/-- The ordered child TreeDefs of an internal node. -/
inductive TreeDefList where
  | nil : TreeDefList
  | cons : TreeDef → TreeDefList → TreeDefList
deriving DecidableEq
end

/-- Modelled from the spec's error taxonomy: `StructureMismatch` (carrying
both conflicting TreeDefs), `ArityMismatch` (carrying the placeholder count
and the leaf count), `UnregisteredType`. -/
inductive PyErr where
  | structureMismatch : TreeDef → TreeDef → PyErr
  | arityMismatch : Nat → Nat → PyErr
  | unregisteredType : NodeType → PyErr
deriving DecidableEq

/-- Outcome of a fallible engine operation. -/
inductive PyResult where
  | ok : PyVal → PyResult
  | error : PyErr → PyResult
deriving DecidableEq

/-- Lexicographic strict order on character lists, by code point. -/
def charsLt : List Char → List Char → Bool
  | [], [] => false
  | [], _ :: _ => true
  | _ :: _, [] => false
  | c :: cs, d :: ds =>
    if c.toNat < d.toNat then true
    else if d.toNat < c.toNat then false
    else charsLt cs ds

/-- The total order over mapping keys used by the registered mapping
decompose ("children ordered by a total order over keys"). -/
def keyLt (a b : String) : Bool := charsLt a.data b.data

/-- Non-strict companion of `keyLt`. -/
def keyLe (a b : String) : Bool := !keyLt b a

/-- Key `k` is `≤` the first element of the list (vacuously true if empty). -/
def leFirstS (k : String) : List String → Bool
  | [] => true
  | k2 :: _ => keyLe k k2

/-- The key list is sorted in non-decreasing `keyLt` order. -/
def sortedStr : List String → Bool
  | [] => true
  | k :: ks => leFirstS k ks && sortedStr ks

/-- Keys of a mapping, in stored entry order. -/
def dictKeys : PyDict → List String
  | .nil => []
  | .cons k _ d => k :: dictKeys d

/-- Values of a mapping, in stored entry order. -/
def dictValsP : PyDict → PyList
  | .nil => .nil
  | .cons _ v d => .cons v (dictValsP d)

/-- Key `k` is `≤` the first key of the mapping (vacuously true if empty). -/
def leFirst (k : String) : PyDict → Bool
  | .nil => true
  | .cons k2 _ _ => keyLe k k2

/-- The mapping's entries are sorted by key in non-decreasing order. -/
def sortedKeys : PyDict → Bool
  | .nil => true
  | .cons k _ d => leFirst k d && sortedKeys d

/-- Insert an entry into a mapping just before the first entry whose key
is not strictly below `k`. -/
def insertEntry (k : String) (v : PyVal) : PyDict → PyDict
  | .nil => .cons k v .nil
  | .cons k2 v2 d =>
    if keyLt k2 k then .cons k2 v2 (insertEntry k v d)
    else .cons k v (.cons k2 v2 d)

/-- Insertion sort of a mapping's entries by key: the order the registered
mapping decompose presents children in. -/
def sortDict : PyDict → PyDict
  | .nil => .nil
  | .cons k v d => insertEntry k v (sortDict d)

/-- Number of elements of a child sequence. -/
def lengthP : PyList → Nat
  | .nil => 0
  | .cons _ vs => 1 + lengthP vs

/-- Number of child TreeDefs. -/
def lenTDL : TreeDefList → Nat
  | .nil => 0
  | .cons _ ts => 1 + lenTDL ts

/-- Child sequence as an ordinary list. -/
def listOfP : PyList → List PyVal
  | .nil => []
  | .cons v vs => v :: listOfP vs

/-- Child sequence from an ordinary list. -/
def plist : List PyVal → PyList
  | [] => .nil
  | v :: vs => .cons v (plist vs)

/-- Mapping from an ordinary association list. -/
def pdict : List (String × PyVal) → PyDict
  | [] => .nil
  | (k, v) :: kvs => .cons k v (pdict kvs)

/-- Child TreeDef sequence from an ordinary list. -/
def tdlOf : List TreeDef → TreeDefList
  | [] => .nil
  | t :: ts => .cons t (tdlOf ts)

/-- An integer leaf value. -/
def aint (n : Int) : PyVal := .atom (.int n)

/-- A string leaf value. -/
def astr (s : String) : PyVal := .atom (.str s)

mutual
/-- Canonical representative of a nested value: every mapping anywhere in
the value has its entries sorted by key.  A Python mapping is unordered,
so a value and its canonical form denote the same nested value; the
engine's mapping decompose presents children in this key-sorted order. -/
def canon : PyVal → PyVal
  | .atom a => .atom a
  | .list vs => .list (canonL vs)
  | .tuple vs => .tuple (canonL vs)
  | .ntuple c vs => .ntuple c (canonL vs)
  | .dict d => .dict (sortDict (canonD d))
  | .none => .none
  | .custom i a vs => .custom i a (canonL vs)
/-- Canonicalization over a child sequence. -/
def canonL : PyList → PyList
  | .nil => .nil
  | .cons v vs => .cons (canon v) (canonL vs)
/-- Canonicalization over a mapping's entry values. -/
def canonD : PyDict → PyDict
  | .nil => .nil
  | .cons k v d => .cons k (canon v) (canonD d)
end

mutual
/-- The value is already canonical: every mapping in it is key-sorted. -/
def canonicalV : PyVal → Bool
  | .atom _ => true
  | .list vs => canonicalL vs
  | .tuple vs => canonicalL vs
  | .ntuple _ vs => canonicalL vs
  | .dict d => sortedKeys d && canonicalD d
  | .none => true
  | .custom _ _ vs => canonicalL vs
/-- Canonicity check over a child sequence. -/
def canonicalL : PyList → Bool
  | .nil => true
  | .cons v vs => canonicalV v && canonicalL vs
/-- Canonicity check over a mapping's entry values. -/
def canonicalD : PyDict → Bool
  | .nil => true
  | .cons _ v d => canonicalV v && canonicalD d
end

mutual
/-- Modelled from the spec's Flattener on canonical values: "if `value`'s
runtime type has a registry entry, call decompose to obtain
`(aux, children)`; recursively flatten each child in order, concatenate
their leaf sequences, and build a TreeDef node from the type identity,
`aux`, and the children's TreeDefs.  If no entry exists, `value` is a
Leaf: the output is a singleton leaf sequence and a TreeDef
leaf-placeholder."  On a canonical value every mapping is already in the
key-sorted order its registered decompose produces, so decomposition is
structural here; `tree_flatten` below canonicalizes first. -/
def flattenC : PyVal → List PyVal × TreeDef
  | .atom a => ([.atom a], .leaf)
  | .list vs =>
    let p := flattenCL vs
    (p.1, .node .listTy .unit p.2)
  | .tuple vs =>
    let p := flattenCL vs
    (p.1, .node .tupleTy .unit p.2)
  | .ntuple c vs =>
    let p := flattenCL vs
    (p.1, .node (.ntupleTy c) .unit p.2)
  | .dict d =>
    let p := flattenCD d
    (p.1, .node .dictTy (.keys (dictKeys d)) p.2)
  | .none => ([], .node .noneTy .unit .nil)
  | .custom i a vs =>
    let p := flattenCL vs
    (p.1, .node (.customTy i) a p.2)
/-- Flatten each child in order and concatenate leaf sequences. -/
def flattenCL : PyList → List PyVal × TreeDefList
  | .nil => ([], .nil)
  | .cons v vs =>
    let p := flattenC v
    let q := flattenCL vs
    (p.1 ++ q.1, .cons p.2 q.2)
/-- Flatten each mapping entry value in stored order. -/
def flattenCD : PyDict → List PyVal × TreeDefList
  | .nil => ([], .nil)
  | .cons _ v d =>
    let p := flattenC v
    let q := flattenCD d
    (p.1 ++ q.1, .cons p.2 q.2)
end

/-- Modelled from the spec:
`flatten(value) -> (leaves: sequence<Leaf>, treedef: TreeDef)`. -/
def tree_flatten (v : PyVal) : List PyVal × TreeDef := flattenC (canon v)

/-- The ordered leaf sequence of a value (depth-first, left-to-right). -/
def tree_leaves (v : PyVal) : List PyVal := (tree_flatten v).1

/-- Modelled from the spec: `structure_of(value) -> treedef` (flatten
discarding leaves). -/
def tree_structure (v : PyVal) : TreeDef := (tree_flatten v).2

mutual
/-- Number of leaf-placeholders in a TreeDef. -/
def numLeaves : TreeDef → Nat
  | .leaf => 1
  | .node _ _ cs => numLeavesL cs
/-- Total number of leaf-placeholders in a child TreeDef sequence. -/
def numLeavesL : TreeDefList → Nat
  | .nil => 0
  | .cons t ts => numLeaves t + numLeavesL ts
end

/-- Pair keys with children, rebuilding a mapping's association list. -/
def zipDict : List String → PyList → PyDict
  | [], _ => .nil
  | _ :: _, .nil => .nil
  | k :: ks, .cons v vs => .cons k v (zipDict ks vs)

/-- Modelled from the spec's Registry: the registered
`recompose(aux, children) -> value` for each type identity.  The mapping
entry rebuilds the association list from the key-order auxiliary data;
the empty marker ignores its (empty) children. -/
def recompose (t : NodeType) (a : AuxData) (cs : PyList) : PyVal :=
  match t, a with
  | .listTy, _ => .list cs
  | .tupleTy, _ => .tuple cs
  | .ntupleTy c, _ => .ntuple c cs
  | .dictTy, .keys ks => .dict (zipDict ks cs)
  | .dictTy, _ => .dict .nil
  | .noneTy, _ => .none
  | .customTy i, aux => .custom i aux cs

/-- Modelled from the spec's Registry: `lookup` plus the registered
`decompose: value -> (children, aux)`.  Atoms have no registry entry;
mappings present children ordered by the total order over keys, with the
key order as auxiliary data; the distinguished empty marker decomposes to
zero children unconditionally. -/
def decompose : PyVal → Option (NodeType × AuxData × PyList)
  | .atom _ => Option.none
  | .list vs => some (.listTy, .unit, vs)
  | .tuple vs => some (.tupleTy, .unit, vs)
  | .ntuple c vs => some (.ntupleTy c, .unit, vs)
  | .dict d => some (.dictTy, .keys (dictKeys (sortDict d)), dictValsP (sortDict d))
  | .none => some (.noneTy, .unit, .nil)
  | .custom i a vs => some (.customTy i, a, vs)

mutual
/-- Modelled from the spec's Reconstructor: "walk the TreeDef depth-first
in the same order flatten used; at each internal node, recursively
reconstruct each child ..., then call the registered
`recompose(aux, children)`.  At a leaf-placeholder, consume the next leaf
from the input sequence in order."  Returns the value and the unconsumed
leaves; `tree_unflatten` performs the arity check first. -/
def build : TreeDef → List PyVal → PyVal × List PyVal
  | .leaf, [] => (.none, [])
  | .leaf, l :: ls => (l, ls)
  | .node t a cs, ls =>
    let p := buildL cs ls
    (recompose t a p.1, p.2)
/-- Reconstruct each child in order, threading the leaf sequence. -/
def buildL : TreeDefList → List PyVal → PyList × List PyVal
  | .nil, ls => (.nil, ls)
  | .cons c cs, ls =>
    let p := build c ls
    let q := buildL cs p.2
    (.cons p.1 q.1, q.2)
end

/-- Modelled from the spec: `unflatten(treedef, leaves) -> value`, "fails
with `ArityMismatch` if the number of leaves does not exactly equal the
number of leaf-placeholders in `treedef`". -/
def tree_unflatten (td : TreeDef) (ls : List PyVal) : PyResult :=
  if ls.length = numLeaves td then .ok (build td ls).1
  else .error (.arityMismatch (numLeaves td) ls.length)

/-- First leaf of a leaf sequence (a placeholder if the sequence is
exhausted, which the structural-equality guard rules out). -/
def headLeaf (ls : List PyVal) : PyVal := ls.headD .none

/-- Apply `f` positionwise: at each leaf position, `f` receives the leaf
of the first tree and the same-position leaf of every other tree
(arity = 1 + number of other trees). -/
def mapLeaves (f : PyVal → List PyVal → PyVal) :
    List PyVal → List (List PyVal) → List PyVal
  | [], _ => []
  | a :: as, others =>
    f a (others.map headLeaf) :: mapLeaves f as (others.map List.tail)

/-- First tree in the list whose TreeDef differs from `td`, if any. -/
def findMismatch (td : TreeDef) : List PyVal → Option TreeDef
  | [] => Option.none
  | r :: rs =>
    if tree_structure r = td then findMismatch td rs
    else some (tree_structure r)

/-- Modelled from the spec's Structural Map:
`map(f, tree, *rest) -> tree`.  "All `rest` trees must be structurally
equal to `tree`'s TreeDef; fails with `StructureMismatch` (carrying both
mismatched TreeDefs for diagnostics) if not ... then for each leaf
position, invoke `f` with the corresponding leaf from `tree` and from
each `rest` entry; collect results in the same order; reconstruct via
`unflatten(treedef, results)`." -/
def tree_map (f : PyVal → List PyVal → PyVal) (tree : PyVal)
    (rest : List PyVal) : PyResult :=
  match findMismatch (tree_structure tree) rest with
  | some bad => .error (.structureMismatch (tree_structure tree) bad)
  | Option.none =>
      tree_unflatten (tree_structure tree)
        (mapLeaves f (tree_leaves tree) (rest.map tree_leaves))

mutual
/-- Modelled from the spec's Transpose: the "combined traversal that
first flattens at `outer_def` granularity (treating values matching
`inner_def`'s shape as the stopping point)".  Walks the value together
with a TreeDef; at a leaf-placeholder the entire subvalue is one outer
leaf; at an internal node the value must decompose with the same type
identity, auxiliary data and child count.  Returns `none` on a structure
mismatch. -/
def flattenUpTo : TreeDef → PyVal → Option (List PyVal)
  | .leaf, v => some [v]
  | .node t a cs, v =>
    match decompose v with
    | Option.none => Option.none
    | some (t2, a2, children) =>
      if t = t2 ∧ a = a2 then flattenUpToL cs children else Option.none
/-- Partial flattening over matching child sequences; fails if the child
counts differ. -/
def flattenUpToL : TreeDefList → PyList → Option (List PyVal)
  | .nil, .nil => some []
  | .nil, .cons _ _ => Option.none
  | .cons _ _, .nil => Option.none
  | .cons c cs, .cons v vs =>
    match flattenUpTo c v, flattenUpToL cs vs with
    | some l, some ls => some (l ++ ls)
    | _, _ => Option.none
end

/-- An internal TreeDef node is consistent with its type identity's
registered recompose/decompose pair: sequence kinds and the empty marker
carry no auxiliary data, the empty marker has no children, and a mapping
node's key list is sorted with exactly one key per child. -/
def validNode : NodeType → AuxData → Nat → Bool
  | .listTy, .unit, _ => true
  | .tupleTy, .unit, _ => true
  | .ntupleTy _, .unit, _ => true
  | .dictTy, .keys ks, n => sortedStr ks && decide (ks.length = n)
  | .noneTy, .unit, n => decide (n = 0)
  | .customTy _, _, _ => true
  | _, _, _ => false

mutual
/-- Every internal node of the TreeDef is `validNode`-consistent.  Every
TreeDef produced by `tree_flatten` is valid. -/
def validTd : TreeDef → Bool
  | .leaf => true
  | .node t a cs => validNode t a (lenTDL cs) && validTdL cs
/-- Validity over a child TreeDef sequence. -/
def validTdL : TreeDefList → Bool
  | .nil => true
  | .cons t ts => validTd t && validTdL ts
end

/-- Collect the values of a list of results, or fail on the first error. -/
def okList : List PyResult → Option (List PyVal)
  | [] => some []
  | .ok v :: rs => (okList rs).map (fun ws => v :: ws)
  | .error _ :: _ => Option.none

/-- The `j`-th leaf of every row, in row order. -/
def column (j : Nat) (rows : List (List PyVal)) : List PyVal :=
  rows.map (fun r => r.getD j .none)

/-- Modelled from the spec's Transpose:
`transpose(outer_def, inner_def, tree) -> tree'`.  Flatten `tree` at
`outer_def` granularity; flatten each outer leaf fully and "verify all
such inner-level flattenings share one common TreeDef (else
`StructureMismatch`), then regroup: for each inner leaf position, gather
the corresponding leaf across all outer positions (in outer traversal
order) and reconstruct an outer-shaped container of those, finally
reconstruct the inner-shaped container whose children are these
outer-shaped containers."  (The final `okList` alternative is
unreachable when the verifications above passed.) -/
def tree_transpose (outerDef innerDef : TreeDef) (tree : PyVal) : PyResult :=
  match flattenUpTo outerDef tree with
  | Option.none => .error (.structureMismatch outerDef (tree_structure tree))
  | some subs =>
    match subs.find? (fun s => !(tree_structure s == innerDef)) with
    | some s => .error (.structureMismatch innerDef (tree_structure s))
    | Option.none =>
      match okList ((List.range (numLeaves innerDef)).map
          (fun j => tree_unflatten outerDef (column j (subs.map tree_leaves)))) with
      | some outers => tree_unflatten innerDef outers
      | Option.none => .error (.structureMismatch outerDef innerDef)

/-- The notebook's example `[1, 'a', object()]`-style leaves: the tuple
tree `(1, (2, 3), ())` whose flattening the notebook records as having
exactly the three leaves `[1, 2, 3]`. -/
def exNested : PyVal :=
  .tuple (plist [aint 1, .tuple (plist [aint 2, aint 3]), .tuple .nil])

/-- The notebook's transpose input `[{t: 1, obs: 3}, {t: 2, obs: 4}]`. -/
def exEpisode : PyVal :=
  .list (plist
    [ .dict (pdict [("t", aint 1), ("obs", aint 3)])
    , .dict (pdict [("t", aint 2), ("obs", aint 4)]) ])

/-- The outer shape of the transpose example: an ordered pair (a
two-element sequence) of leaves, `tree_structure [0, 0]`. -/
def exOuterDef : TreeDef :=
  tree_structure (.list (plist [aint 0, aint 0]))

/-- The inner shape of the transpose example: a mapping with keys
`{t, obs}`, `tree_structure {t: 1, obs: 3}`. -/
def exInnerDef : TreeDef :=
  tree_structure (.dict (pdict [("t", aint 1), ("obs", aint 3)]))

/-- The notebook's recorded transpose output `{'obs': [3, 4], 't': [1, 2]}`
(a mapping with keys `t` and `obs`, binding `t` to `[1, 2]` and `obs` to
`[3, 4]`; the engine materializes mappings in key-sorted order). -/
def exTransposed : PyVal :=
  .dict (pdict
    [ ("obs", .list (plist [aint 3, aint 4]))
    , ("t", .list (plist [aint 1, aint 2])) ])

/-- The key order is asymmetric on character lists. -/
theorem charsLt_asymm (a : List Char) : ∀ b, charsLt a b = true → charsLt b a = false := by
  induction a with
  | nil =>
    intro b h
    cases b with
    | nil => simp [charsLt] at h
    | cons d ds => simp [charsLt]
  | cons c cs ih =>
    intro b h
    cases b with
    | nil => simp [charsLt] at h
    | cons d ds =>
      simp only [charsLt] at h ⊢
      by_cases h1 : c.toNat < d.toNat
      · have h2 : ¬ d.toNat < c.toNat := by omega
        simp [h1, h2]
      · by_cases h2 : d.toNat < c.toNat
        · simp [h1, h2] at h
        · simp [h1, h2] at h ⊢
          exact ih ds h

/-- The key order is asymmetric. -/
theorem keyLt_asymm (a b : String) (h : keyLt a b = true) : keyLt b a = false :=
  charsLt_asymm a.data b.data h

/-- A strict key comparison yields the non-strict one. -/
theorem keyLe_of_keyLt (a b : String) (h : keyLt a b = true) : keyLe a b = true := by
  simp [keyLe, keyLt_asymm a b h]

/-- Inserting a key that is `≤` the first key just conses the entry. -/
theorem insertEntry_of_leFirst (k : String) (v : PyVal) (d : PyDict)
    (h : leFirst k d = true) : insertEntry k v d = .cons k v d := by
  cases d with
  | nil => rfl
  | cons k2 v2 d' =>
    simp only [leFirst, keyLe, Bool.not_eq_true'] at h
    simp [insertEntry, h]

/-- Insertion keeps a lower bound on the first key. -/
theorem leFirst_insertEntry (k2 k : String) (v : PyVal) (d : PyDict)
    (hle : keyLe k2 k = true) (hfirst : leFirst k2 d = true) :
    leFirst k2 (insertEntry k v d) = true := by
  cases d with
  | nil => simpa [insertEntry, leFirst] using hle
  | cons k3 v3 d' =>
    simp only [insertEntry]
    by_cases h3 : keyLt k3 k
    · simpa [h3, leFirst] using hfirst
    · simpa [h3, leFirst] using hle

/-- Insertion preserves sortedness of a mapping's entries. -/
theorem sorted_insertEntry (k : String) (v : PyVal) :
    ∀ d : PyDict, sortedKeys d = true → sortedKeys (insertEntry k v d) = true
  | .nil, _ => by simp [insertEntry, sortedKeys, leFirst]
  | .cons k2 v2 d', h => by
    simp only [sortedKeys, Bool.and_eq_true] at h
    obtain ⟨h1, h2⟩ := h
    simp only [insertEntry]
    by_cases hlt : keyLt k2 k
    · simp only [hlt, if_true, sortedKeys, Bool.and_eq_true]
      exact ⟨leFirst_insertEntry k2 k v d' (keyLe_of_keyLt k2 k hlt) h1,
        sorted_insertEntry k v d' h2⟩
    · simp only [hlt, if_false, sortedKeys, Bool.and_eq_true, leFirst]
      exact ⟨by simp [keyLe, hlt], h1, h2⟩

/-- Sorting produces a key-sorted mapping. -/
theorem sortDict_sorted : ∀ d : PyDict, sortedKeys (sortDict d) = true
  | .nil => rfl
  | .cons k v d' => sorted_insertEntry k v (sortDict d') (sortDict_sorted d')

/-- Sorting fixes a mapping that is already key-sorted. -/
theorem sortDict_id : ∀ d : PyDict, sortedKeys d = true → sortDict d = d
  | .nil, _ => rfl
  | .cons k v d', h => by
    simp only [sortedKeys, Bool.and_eq_true] at h
    obtain ⟨h1, h2⟩ := h
    simp only [sortDict, sortDict_id d' h2]
    exact insertEntry_of_leFirst k v d' h1

/-- Insertion preserves canonical entry values. -/
theorem canonicalD_insertEntry (k : String) (v : PyVal) (hv : canonicalV v = true) :
    ∀ d : PyDict, canonicalD d = true → canonicalD (insertEntry k v d) = true
  | .nil, _ => by simp [insertEntry, canonicalD, hv]
  | .cons k2 v2 d', hd => by
    simp only [canonicalD, Bool.and_eq_true] at hd
    obtain ⟨h1, h2⟩ := hd
    simp only [insertEntry]
    by_cases hlt : keyLt k2 k
    · simp only [hlt, if_true, canonicalD, Bool.and_eq_true]
      exact ⟨h1, canonicalD_insertEntry k v hv d' h2⟩
    · simp only [hlt, if_false, canonicalD, Bool.and_eq_true]
      exact ⟨hv, h1, h2⟩

/-- Sorting preserves canonical entry values. -/
theorem canonicalD_sortDict : ∀ d : PyDict, canonicalD d = true →
    canonicalD (sortDict d) = true
  | .nil, _ => rfl
  | .cons k v d', h => by
    simp only [canonicalD, Bool.and_eq_true] at h
    exact canonicalD_insertEntry k v h.1 (sortDict d') (canonicalD_sortDict d' h.2)

mutual
/-- Canonicalization yields a canonical value. -/
theorem canon_canonical : ∀ v : PyVal, canonicalV (canon v) = true
  | .atom _ => rfl
  | .list vs => canonL_canonical vs
  | .tuple vs => canonL_canonical vs
  | .ntuple _ vs => canonL_canonical vs
  | .dict d => by
    simp only [canon, canonicalV, Bool.and_eq_true]
    exact ⟨sortDict_sorted _, canonicalD_sortDict _ (canonD_canonical d)⟩
  | .none => rfl
  | .custom _ _ vs => canonL_canonical vs
/-- Canonicalization of a child sequence yields canonical children. -/
theorem canonL_canonical : ∀ vs : PyList, canonicalL (canonL vs) = true
  | .nil => rfl
  | .cons v vs => by
    simp only [canonL, canonicalL, Bool.and_eq_true]
    exact ⟨canon_canonical v, canonL_canonical vs⟩
/-- Canonicalization of entry values yields canonical entry values. -/
theorem canonD_canonical : ∀ d : PyDict, canonicalD (canonD d) = true
  | .nil => rfl
  | .cons _ v d => by
    simp only [canonD, canonicalD, Bool.and_eq_true]
    exact ⟨canon_canonical v, canonD_canonical d⟩
end

mutual
/-- Canonicalization fixes canonical values. -/
theorem canon_id : ∀ v : PyVal, canonicalV v = true → canon v = v
  | .atom _, _ => rfl
  | .list vs, h => by simp only [canon, canonL_id vs h]
  | .tuple vs, h => by simp only [canon, canonL_id vs h]
  | .ntuple _ vs, h => by simp only [canon, canonL_id vs h]
  | .dict d, h => by
    simp only [canonicalV, Bool.and_eq_true] at h
    simp only [canon, canonD_id d h.2, sortDict_id d h.1]
  | .none, _ => rfl
  | .custom _ _ vs, h => by simp only [canon, canonL_id vs h]
/-- Canonicalization fixes canonical child sequences. -/
theorem canonL_id : ∀ vs : PyList, canonicalL vs = true → canonL vs = vs
  | .nil, _ => rfl
  | .cons v vs, h => by
    simp only [canonicalL, Bool.and_eq_true] at h
    simp only [canonL, canon_id v h.1, canonL_id vs h.2]
/-- Canonicalization fixes canonical entry values. -/
theorem canonD_id : ∀ d : PyDict, canonicalD d = true → canonD d = d
  | .nil, _ => rfl
  | .cons k v d, h => by
    simp only [canonicalD, Bool.and_eq_true] at h
    simp only [canonD, canon_id v h.1, canonD_id d h.2]
end

/-- Re-pairing a mapping's keys with its values gives the mapping back. -/
theorem zipDict_keys_vals : ∀ d : PyDict, zipDict (dictKeys d) (dictValsP d) = d
  | .nil => rfl
  | .cons k v d => by simp only [dictKeys, dictValsP, zipDict, zipDict_keys_vals d]

/-- Keys of a zipped mapping are the given keys when lengths agree. -/
theorem dictKeys_zipDict : ∀ (ks : List String) (vs : PyList),
    ks.length = lengthP vs → dictKeys (zipDict ks vs) = ks
  | [], .nil, _ => rfl
  | [], .cons _ _, _ => rfl
  | _ :: _, .nil, h => by simp [lengthP] at h
  | k :: ks, .cons v vs, h => by
    simp only [List.length_cons, lengthP] at h
    simp only [zipDict, dictKeys, dictKeys_zipDict ks vs (by omega)]

/-- Values of a zipped mapping are the given values when lengths agree. -/
theorem dictValsP_zipDict : ∀ (ks : List String) (vs : PyList),
    ks.length = lengthP vs → dictValsP (zipDict ks vs) = vs
  | [], .nil, _ => rfl
  | [], .cons _ _, h => by simp only [List.length_nil, lengthP] at h; omega
  | _ :: _, .nil, h => by simp [lengthP] at h
  | k :: ks, .cons v vs, h => by
    simp only [List.length_cons, lengthP] at h
    simp only [zipDict, dictValsP, dictValsP_zipDict ks vs (by omega)]

/-- A child sequence of length zero is empty. -/
theorem lengthP_eq_zero : ∀ vs : PyList, lengthP vs = 0 → vs = .nil
  | .nil, _ => rfl
  | .cons _ _, h => by simp [lengthP] at h

/-- Entry-level sortedness of a mapping coincides with sortedness of its
key list. -/
theorem sortedKeys_eq_sortedStr : ∀ d : PyDict, sortedKeys d = sortedStr (dictKeys d)
  | .nil => rfl
  | .cons k v d => by
    have hfst : leFirst k d = leFirstS k (dictKeys d) := by
      cases d <;> rfl
    simp only [sortedKeys, dictKeys, sortedStr, hfst, sortedKeys_eq_sortedStr d]

mutual
/-- Flattening then rebuilding recovers the value, leaving extra leaves
untouched: the decompose/recompose pairs of the registry are inverse. -/
theorem build_flattenC : ∀ (v : PyVal) (ls : List PyVal),
    build (flattenC v).2 ((flattenC v).1 ++ ls) = (v, ls)
  | .atom a, ls => rfl
  | .list vs, ls => by
    simp only [flattenC, build, buildL_flattenCL vs ls, recompose]
  | .tuple vs, ls => by
    simp only [flattenC, build, buildL_flattenCL vs ls, recompose]
  | .ntuple c vs, ls => by
    simp only [flattenC, build, buildL_flattenCL vs ls, recompose]
  | .dict d, ls => by
    simp only [flattenC, build, buildL_flattenCD d ls, recompose, zipDict_keys_vals d]
  | .none, ls => rfl
  | .custom i a vs, ls => by
    simp only [flattenC, build, buildL_flattenCL vs ls, recompose]
/-- The round trip over a child sequence. -/
theorem buildL_flattenCL : ∀ (vs : PyList) (ls : List PyVal),
    buildL (flattenCL vs).2 ((flattenCL vs).1 ++ ls) = (vs, ls)
  | .nil, ls => rfl
  | .cons v vs, ls => by
    simp only [flattenCL, buildL, List.append_assoc, build_flattenC v,
      buildL_flattenCL vs ls]
/-- The round trip over a mapping's entry values. -/
theorem buildL_flattenCD : ∀ (d : PyDict) (ls : List PyVal),
    buildL (flattenCD d).2 ((flattenCD d).1 ++ ls) = (dictValsP d, ls)
  | .nil, ls => rfl
  | .cons k v d, ls => by
    simp only [flattenCD, buildL, dictValsP, List.append_assoc, build_flattenC v,
      buildL_flattenCD d ls]
end

mutual
/-- A flattening produces exactly as many leaves as the TreeDef has
leaf-placeholders. -/
theorem length_flattenC : ∀ v : PyVal,
    (flattenC v).1.length = numLeaves (flattenC v).2
  | .atom _ => rfl
  | .list vs => by simp only [flattenC, numLeaves, length_flattenCL vs]
  | .tuple vs => by simp only [flattenC, numLeaves, length_flattenCL vs]
  | .ntuple _ vs => by simp only [flattenC, numLeaves, length_flattenCL vs]
  | .dict d => by simp only [flattenC, numLeaves, length_flattenCD d]
  | .none => rfl
  | .custom _ _ vs => by simp only [flattenC, numLeaves, length_flattenCL vs]
/-- The leaf count over a child sequence. -/
theorem length_flattenCL : ∀ vs : PyList,
    (flattenCL vs).1.length = numLeavesL (flattenCL vs).2
  | .nil => rfl
  | .cons v vs => by
    simp only [flattenCL, numLeavesL, List.length_append, length_flattenC v,
      length_flattenCL vs]
/-- The leaf count over a mapping's entry values. -/
theorem length_flattenCD : ∀ d : PyDict,
    (flattenCD d).1.length = numLeavesL (flattenCD d).2
  | .nil => rfl
  | .cons _ v d => by
    simp only [flattenCD, numLeavesL, List.length_append, length_flattenC v,
      length_flattenCD d]
end

/-- A mapping's flattening has one child TreeDef per entry. -/
theorem lenTDL_flattenCD : ∀ d : PyDict, lenTDL (flattenCD d).2 = (dictKeys d).length
  | .nil => rfl
  | .cons _ v d => by
    simp only [flattenCD, lenTDL, dictKeys, List.length_cons, lenTDL_flattenCD d]
    omega

mutual
/-- The TreeDef a canonical value flattens to is `validTd`-consistent. -/
theorem validTd_flattenC : ∀ v : PyVal, canonicalV v = true →
    validTd (flattenC v).2 = true
  | .atom _, _ => rfl
  | .list vs, h => by
    simp only [flattenC, validTd, validNode, Bool.and_eq_true]
    exact ⟨trivial, validTdL_flattenCL vs h⟩
  | .tuple vs, h => by
    simp only [flattenC, validTd, validNode, Bool.and_eq_true]
    exact ⟨trivial, validTdL_flattenCL vs h⟩
  | .ntuple _ vs, h => by
    simp only [flattenC, validTd, validNode, Bool.and_eq_true]
    exact ⟨trivial, validTdL_flattenCL vs h⟩
  | .dict d, h => by
    simp only [canonicalV, Bool.and_eq_true] at h
    simp only [flattenC, validTd, validNode, Bool.and_eq_true, lenTDL_flattenCD d,
      decide_eq_true_eq]
    refine ⟨⟨?_, trivial⟩, validTdL_flattenCD d h.2⟩
    rw [← sortedKeys_eq_sortedStr d]
    exact h.1
  | .none, _ => rfl
  | .custom _ _ vs, h => by
    simp only [flattenC, validTd, validNode, Bool.and_eq_true]
    exact ⟨trivial, validTdL_flattenCL vs h⟩
/-- TreeDef validity over a child sequence. -/
theorem validTdL_flattenCL : ∀ vs : PyList, canonicalL vs = true →
    validTdL (flattenCL vs).2 = true
  | .nil, _ => rfl
  | .cons v vs, h => by
    simp only [canonicalL, Bool.and_eq_true] at h
    simp only [flattenCL, validTdL, Bool.and_eq_true]
    exact ⟨validTd_flattenC v h.1, validTdL_flattenCL vs h.2⟩
/-- TreeDef validity over a mapping's entry values. -/
theorem validTdL_flattenCD : ∀ d : PyDict, canonicalD d = true →
    validTdL (flattenCD d).2 = true
  | .nil, _ => rfl
  | .cons _ v d, h => by
    simp only [canonicalD, Bool.and_eq_true] at h
    simp only [flattenCD, validTdL, Bool.and_eq_true]
    exact ⟨validTd_flattenC v h.1, validTdL_flattenCD d h.2⟩
end

/-- Every TreeDef produced by `tree_structure` is valid. -/
theorem validTd_tree_structure (v : PyVal) : validTd (tree_structure v) = true :=
  validTd_flattenC (canon v) (canon_canonical v)

/-- The leaf count of any flattening matches its TreeDef. -/
theorem length_tree_leaves (v : PyVal) :
    (tree_leaves v).length = numLeaves (tree_structure v) :=
  length_flattenC (canon v)

/-- For a valid node, decomposing a recomposed container returns exactly
the type identity, auxiliary data and children it was built from: the
registered pairs are inverse. -/
theorem decompose_recompose (t : NodeType) (a : AuxData) (ws : PyList)
    (h : validNode t a (lengthP ws) = true) :
    decompose (recompose t a ws) = some (t, a, ws) := by
  cases t with
  | listTy => cases a <;> simp_all [validNode, recompose, decompose]
  | tupleTy => cases a <;> simp_all [validNode, recompose, decompose]
  | ntupleTy c => cases a <;> simp_all [validNode, recompose, decompose]
  | noneTy =>
    cases a <;> simp_all [validNode, recompose, decompose]
    rw [lengthP_eq_zero ws h]
  | customTy i => simp [validNode, recompose, decompose]
  | dictTy =>
    cases a with
    | unit => simp [validNode] at h
    | tag _ => simp [validNode] at h
    | keys ks =>
      simp only [validNode, Bool.and_eq_true, decide_eq_true_eq] at h
      obtain ⟨hs, hl⟩ := h
      have hk := dictKeys_zipDict ks ws hl
      have hsorted : sortedKeys (zipDict ks ws) = true := by
        rw [sortedKeys_eq_sortedStr, hk]; exact hs
      simp only [recompose, decompose, sortDict_id _ hsorted, hk,
        dictValsP_zipDict ks ws hl]

mutual
/-- Rebuilding a value from a valid TreeDef and leaves, then flattening
it back at the granularity of the same TreeDef, recovers exactly those
leaves (and the rebuild consumes exactly the placeholder count). -/
theorem build_flattenUpTo : ∀ td : TreeDef, validTd td = true →
    ∀ ls ls' : List PyVal, ls.length = numLeaves td →
    ∃ w, build td (ls ++ ls') = (w, ls') ∧ flattenUpTo td w = some ls
  | .leaf, _, ls, ls', h => by
    cases ls with
    | nil => simp [numLeaves] at h
    | cons l ls0 =>
      simp only [List.length_cons, numLeaves] at h
      have : ls0 = [] := List.length_eq_zero.mp (by omega)
      subst this
      exact ⟨l, rfl, rfl⟩
  | .node t a cs, hv, ls, ls', h => by
    simp only [validTd, Bool.and_eq_true] at hv
    simp only [numLeaves] at h
    obtain ⟨ws, hws, hlws, hfws⟩ := buildL_flattenUpToL cs hv.2 ls ls' h
    refine ⟨recompose t a ws, ?_, ?_⟩
    · simp only [build, hws]
    · have hvn : validNode t a (lengthP ws) = true := by rw [hlws]; exact hv.1
      simp only [flattenUpTo, decompose_recompose t a ws hvn]
      simp [hfws]
/-- The rebuild/recover property over child sequences, splitting the leaf input at
placeholder counts. -/
theorem buildL_flattenUpToL : ∀ cs : TreeDefList, validTdL cs = true →
    ∀ ls ls' : List PyVal, ls.length = numLeavesL cs →
    ∃ ws, buildL cs (ls ++ ls') = (ws, ls') ∧ lengthP ws = lenTDL cs ∧
      flattenUpToL cs ws = some ls
  | .nil, _, ls, ls', h => by
    have : ls = [] := List.length_eq_zero.mp (by simpa [numLeavesL] using h)
    subst this
    exact ⟨.nil, rfl, rfl, rfl⟩
  | .cons c cs, hv, ls, ls', h => by
    simp only [validTdL, Bool.and_eq_true] at hv
    simp only [numLeavesL] at h
    have hsplit : ls = ls.take (numLeaves c) ++ ls.drop (numLeaves c) :=
      (List.take_append_drop _ _).symm
    have hl1 : (ls.take (numLeaves c)).length = numLeaves c := by
      simp [List.length_take]; omega
    have hl2 : (ls.drop (numLeaves c)).length = numLeavesL cs := by
      simp [List.length_drop]; omega
    obtain ⟨w, hw, hfw⟩ :=
      build_flattenUpTo c hv.1 (ls.take (numLeaves c)) (ls.drop (numLeaves c) ++ ls') hl1
    obtain ⟨ws, hws, hlws, hfws⟩ :=
      buildL_flattenUpToL cs hv.2 (ls.drop (numLeaves c)) ls' hl2
    refine ⟨.cons w ws, ?_, ?_, ?_⟩
    · conv in ls ++ ls' => rw [hsplit]
      simp only [buildL, List.append_assoc, hw, hws]
    · simp only [lengthP, lenTDL, hlws]
    · simp only [flattenUpToL, hfw, hfws]
      rw [← hsplit]
end

mutual
/-- Flattening at a TreeDef's granularity yields one outer leaf per
leaf-placeholder. -/
theorem flattenUpTo_length : ∀ (td : TreeDef) (v : PyVal) (ls : List PyVal),
    flattenUpTo td v = some ls → ls.length = numLeaves td
  | .leaf, v, ls, h => by
    simp only [flattenUpTo, Option.some.injEq] at h
    subst h
    rfl
  | .node t a cs, v, ls, h => by
    simp only [flattenUpTo] at h
    cases hd : decompose v with
    | none => rw [hd] at h; exact absurd h (by simp)
    | some trip =>
      obtain ⟨t2, a2, children⟩ := trip
      rw [hd] at h
      by_cases hc : t = t2 ∧ a = a2
      · simp only [hc, if_true] at h
        exact flattenUpToL_length cs children ls h
      · simp [hc] at h
/-- The outer leaf count over child sequences. -/
theorem flattenUpToL_length : ∀ (cs : TreeDefList) (vs : PyList) (ls : List PyVal),
    flattenUpToL cs vs = some ls → ls.length = numLeavesL cs
  | .nil, .nil, ls, h => by
    simp only [flattenUpToL, Option.some.injEq] at h
    subst h
    rfl
  | .nil, .cons _ _, _, h => by simp [flattenUpToL] at h
  | .cons _ _, .nil, _, h => by simp [flattenUpToL] at h
  | .cons c cs, .cons v vs, ls, h => by
    simp only [flattenUpToL] at h
    cases h1 : flattenUpTo c v with
    | none => rw [h1] at h; exact absurd h (by simp)
    | some l =>
      cases h2 : flattenUpToL cs vs with
      | none => rw [h1, h2] at h; exact absurd h (by simp)
      | some l2 =>
        rw [h1, h2] at h
        simp only [Option.some.injEq] at h
        subst h
        simp only [List.length_append, numLeavesL,
          flattenUpTo_length c v l h1, flattenUpToL_length cs vs l2 h2]
end

/-- If every other tree matches the TreeDef, no mismatch is found. -/
theorem findMismatch_eq_none (td : TreeDef) (rest : List PyVal)
    (h : ∀ r ∈ rest, tree_structure r = td) :
    findMismatch td rest = Option.none := by
  induction rest with
  | nil => rfl
  | cons r rs ih =>
    simp only [findMismatch, h r (by simp)]
    exact ih (fun x hx => h x (by simp [hx]))

/-- Positionwise application preserves the leaf count of the first tree. -/
theorem mapLeaves_length (f : PyVal → List PyVal → PyVal) :
    ∀ (as : List PyVal) (os : List (List PyVal)),
    (mapLeaves f as os).length = as.length := by
  intro as
  induction as with
  | nil => intro os; rfl
  | cons a as ih => intro os; simp only [mapLeaves, List.length_cons, ih]

/-- Dropping the head shifts positional access by one. -/
theorem getD_tail (o : List PyVal) (j : Nat) (d : PyVal) :
    o.tail.getD j d = o.getD (j + 1) d := by
  cases o with
  | nil => rfl
  | cons x xs => simp [List.getD_cons_succ]

/-- The head with default is positional access at index zero. -/
theorem headLeaf_eq_getD (o : List PyVal) : headLeaf o = o.getD 0 .none := by
  cases o <;> rfl

/-- Position `j` of the combined leaf sequence is `f` applied to the
`j`-th leaf of the first tree and the `j`-th leaf of every other tree. -/
theorem mapLeaves_getD (f : PyVal → List PyVal → PyVal) :
    ∀ (as : List PyVal) (os : List (List PyVal)) (j : Nat), j < as.length →
    (mapLeaves f as os).getD j .none =
      f (as.getD j .none) (os.map (fun o => o.getD j .none)) := by
  intro as
  induction as with
  | nil => intro os j hj; simp at hj
  | cons a as ih =>
    intro os j hj
    cases j with
    | zero =>
      simp only [mapLeaves, List.getD_cons_zero]
      congr 1
      exact List.map_congr_left (fun o _ => headLeaf_eq_getD o)
    | succ j =>
      simp only [mapLeaves, List.getD_cons_succ]
      rw [ih (os.map List.tail) j (by simpa using hj)]
      simp only [List.map_map]
      congr 1
      exact List.map_congr_left (fun o _ => by simp only [Function.comp_apply, getD_tail])

/-- Collecting results of a pointwise-successful computation succeeds. -/
theorem okList_map {α : Type} (l : List α) (g : α → PyResult) (w : α → PyVal)
    (h : ∀ x ∈ l, g x = .ok (w x)) : okList (l.map g) = some (l.map w) := by
  induction l with
  | nil => rfl
  | cons x xs ih =>
    simp only [List.map_cons, h x (by simp), okList,
      ih (fun y hy => h y (by simp [hy]))]
    rfl

/-- Unflattening with the exact leaf count succeeds with the rebuild. -/
theorem tree_unflatten_of_length (td : TreeDef) (ls : List PyVal)
    (h : ls.length = numLeaves td) :
    tree_unflatten td ls = .ok (build td ls).1 := by
  simp [tree_unflatten, h]

/-- Unflattening a valid TreeDef with the right number of leaves yields a
value that flattens back (at that TreeDef's granularity) to those leaves. -/
theorem unflatten_flattenUpTo (td : TreeDef) (ls : List PyVal)
    (hv : validTd td = true) (hl : ls.length = numLeaves td) :
    ∃ w, tree_unflatten td ls = .ok w ∧ flattenUpTo td w = some ls := by
  obtain ⟨w, hw, hfw⟩ := build_flattenUpTo td hv ls [] hl
  rw [List.append_nil] at hw
  exact ⟨w, by simp [tree_unflatten, hl, hw], hfw⟩

/-- Unflattening a value's own flattening reconstructs its canonical
form. -/
theorem unflatten_flatten (v : PyVal) :
    tree_unflatten (tree_structure v) (tree_leaves v) = .ok (canon v) := by
  have h := build_flattenC (canon v) []
  rw [List.append_nil] at h
  simp only [tree_unflatten, tree_structure, tree_leaves, tree_flatten,
    length_flattenC (canon v), if_true, h]

/-- Canonicalization does not change a value's flattening. -/
theorem tree_flatten_canon (v : PyVal) : tree_flatten (canon v) = tree_flatten v := by
  simp only [tree_flatten, canon_id (canon v) (canon_canonical v)]

/-- Leaves of a flattened child sequence are the concatenation of each
child's own leaf sequence, in order. -/
theorem flattenCL_canonL_fst : ∀ fs : PyList,
    (flattenCL (canonL fs)).1 = ((listOfP fs).map tree_leaves).flatten
  | .nil => rfl
  | .cons v vs => by
    simp only [canonL, flattenCL, listOfP, List.map_cons, List.flatten_cons,
      flattenCL_canonL_fst vs]
    rfl

/-- Child TreeDefs of a flattened child sequence are each child's own
TreeDef, in order. -/
theorem flattenCL_canonL_snd : ∀ fs : PyList,
    (flattenCL (canonL fs)).2 = tdlOf ((listOfP fs).map tree_structure)
  | .nil => rfl
  | .cons v vs => by
    simp only [canonL, flattenCL, listOfP, List.map_cons, tdlOf,
      flattenCL_canonL_snd vs]
    rfl

/-- An example nested value exercising every registered container kind:
a list holding a leaf, a mapping, the empty marker, a custom record and a
tuple. -/
def exRound : PyVal :=
  .list (plist
    [ aint 1
    , .dict (pdict [("a", aint 2), ("b", .tuple (plist [aint 3, aint 4]))])
    , .none
    , .custom 0 (.tag "A") (plist [aint 5]) ])

/-- C1: for every supported nested value `v`, unflattening the result of
flattening `v` reconstructs a value equal to `v` in shape and in leaf
content — the reconstruction is `v`'s canonical form, which has the same
TreeDef and the same leaf sequence as `v`, and is `v` itself whenever
`v`'s mappings are already key-sorted.  The registered decompose/recompose
pairs being inverse is what `build_flattenC` rests on. -/
theorem round_trip (v : PyVal) :
    tree_unflatten (tree_structure v) (tree_leaves v) = .ok (canon v) ∧
    tree_structure (canon v) = tree_structure v ∧
    tree_leaves (canon v) = tree_leaves v ∧
    (canonicalV v = true → canon v = v) := by
  refine ⟨unflatten_flatten v, ?_, ?_, canon_id v⟩
  · simp only [tree_structure, tree_flatten_canon v]
  · simp only [tree_leaves, tree_flatten_canon v]

/-- C1 witness: the round trip at a concrete canonical value covering
every container kind reconstructs exactly that value. -/
theorem round_trip_witness :
    tree_unflatten (tree_structure exRound) (tree_leaves exRound) = .ok exRound := by
  have h := round_trip exRound
  have hc : canon exRound = exRound := h.2.2.2 (by decide)
  rw [hc] at h
  exact h.1

/-- C2: `map(f, a, b)` fails with `StructureMismatch` whenever the
TreeDefs of `a` and `b` differ — this covers a different container type
identity at a matching position, different child counts, or different
auxiliary data, all of which make the TreeDefs unequal — and the error
carries both mismatched TreeDefs. -/
theorem map_structure_mismatch (f : PyVal → List PyVal → PyVal) (a b : PyVal)
    (h : tree_structure a ≠ tree_structure b) :
    tree_map f a [b] =
      .error (.structureMismatch (tree_structure a) (tree_structure b)) := by
  have hb : ¬ (tree_structure b = tree_structure a) := fun hb => h hb.symm
  simp [tree_map, findMismatch, hb]

/-- C2 witness: mapping over the list `[1, 2, 3]` and the tuple
`(1, 2, 3)` — two distinct registered sequence kinds — fails with
`StructureMismatch` carrying both TreeDefs. -/
theorem map_structure_mismatch_witness :
    tree_map (fun x _ => x) (.list (plist [aint 1, aint 2, aint 3]))
      [.tuple (plist [aint 1, aint 2, aint 3])] =
    .error (.structureMismatch
      (tree_structure (.list (plist [aint 1, aint 2, aint 3])))
      (tree_structure (.tuple (plist [aint 1, aint 2, aint 3])))) :=
  map_structure_mismatch (fun x _ => x)
    (.list (plist [aint 1, aint 2, aint 3]))
    (.tuple (plist [aint 1, aint 2, aint 3])) (by decide)

/-- C3: for structurally equal trees, `map` succeeds, the result is
`unflatten(treedef, results)`, it conforms to `tree`'s TreeDef with the
combined results at its leaf positions, and the result at leaf position
`j` is `f` applied to the `j`-th leaf of `tree` and the `j`-th leaf of
each other tree, in flatten's leaf order. -/
theorem map_structural (f : PyVal → List PyVal → PyVal) (tree : PyVal)
    (rest : List PyVal)
    (h : ∀ r ∈ rest, tree_structure r = tree_structure tree) :
    ∃ w, tree_map f tree rest = .ok w ∧
      tree_map f tree rest =
        tree_unflatten (tree_structure tree)
          (mapLeaves f (tree_leaves tree) (rest.map tree_leaves)) ∧
      flattenUpTo (tree_structure tree) w =
        some (mapLeaves f (tree_leaves tree) (rest.map tree_leaves)) ∧
      ∀ j < (tree_leaves tree).length,
        (mapLeaves f (tree_leaves tree) (rest.map tree_leaves)).getD j .none =
          f ((tree_leaves tree).getD j .none)
            (rest.map (fun r => (tree_leaves r).getD j .none)) := by
  have hfm := findMismatch_eq_none (tree_structure tree) rest h
  have hlen : (mapLeaves f (tree_leaves tree) (rest.map tree_leaves)).length
      = numLeaves (tree_structure tree) := by
    rw [mapLeaves_length, length_tree_leaves]
  obtain ⟨w, hw, hfw⟩ :=
    unflatten_flattenUpTo (tree_structure tree) _ (validTd_tree_structure tree) hlen
  refine ⟨w, ?_, ?_, hfw, ?_⟩
  · simp only [tree_map, hfm, hw]
  · simp only [tree_map, hfm]
  · intro j hj
    rw [mapLeaves_getD f (tree_leaves tree) _ j hj, List.map_map]
    rfl

/-- C3 witness: adding the lists `[1, 2]` and `[10, 20]` positionwise
succeeds with a list conforming to the common TreeDef whose leaves are
the positionwise results. -/
theorem map_structural_witness :
    ∃ w, tree_map (fun x others => match x, headLeaf others with
        | .atom (.int n), .atom (.int m) => aint (n + m)
        | _, _ => .none)
      (.list (plist [aint 1, aint 2])) [.list (plist [aint 10, aint 20])] = .ok w ∧
      tree_map (fun x others => match x, headLeaf others with
        | .atom (.int n), .atom (.int m) => aint (n + m)
        | _, _ => .none)
        (.list (plist [aint 1, aint 2])) [.list (plist [aint 10, aint 20])] =
        tree_unflatten (tree_structure (.list (plist [aint 1, aint 2])))
          (mapLeaves (fun x others => match x, headLeaf others with
            | .atom (.int n), .atom (.int m) => aint (n + m)
            | _, _ => .none)
            (tree_leaves (.list (plist [aint 1, aint 2])))
            ([.list (plist [aint 10, aint 20])].map tree_leaves)) ∧
      flattenUpTo (tree_structure (.list (plist [aint 1, aint 2]))) w =
        some (mapLeaves (fun x others => match x, headLeaf others with
          | .atom (.int n), .atom (.int m) => aint (n + m)
          | _, _ => .none)
          (tree_leaves (.list (plist [aint 1, aint 2])))
          ([.list (plist [aint 10, aint 20])].map tree_leaves)) ∧
      ∀ j < (tree_leaves (.list (plist [aint 1, aint 2]))).length,
        (mapLeaves (fun x others => match x, headLeaf others with
          | .atom (.int n), .atom (.int m) => aint (n + m)
          | _, _ => .none)
          (tree_leaves (.list (plist [aint 1, aint 2])))
          ([.list (plist [aint 10, aint 20])].map tree_leaves)).getD j .none =
          (fun x others => match x, headLeaf others with
            | .atom (.int n), .atom (.int m) => aint (n + m)
            | _, _ => .none)
            ((tree_leaves (.list (plist [aint 1, aint 2]))).getD j .none)
            ([.list (plist [aint 10, aint 20])].map
              (fun r => (tree_leaves r).getD j .none)) :=
  map_structural _ (.list (plist [aint 1, aint 2]))
    [.list (plist [aint 10, aint 20])] (by decide)

/-- C4: `unflatten(treedef, leaves)` fails with `ArityMismatch` — carrying
the placeholder count and the leaf count — exactly when the number of
leaves differs from the number of leaf-placeholders, and succeeds with the
reconstruction otherwise. -/
theorem unflatten_arity (td : TreeDef) (ls : List PyVal) :
    (tree_unflatten td ls = .error (.arityMismatch (numLeaves td) ls.length)
      ↔ ls.length ≠ numLeaves td) ∧
    (ls.length = numLeaves td → tree_unflatten td ls = .ok (build td ls).1) := by
  refine ⟨⟨?_, ?_⟩, tree_unflatten_of_length td ls⟩
  · intro h hlen
    simp [tree_unflatten, hlen] at h
  · intro hne
    simp [tree_unflatten, hne]

/-- C4 witness: unflattening a TreeDef with 3 leaf-placeholders from a
2-element leaf list fails with `ArityMismatch`. -/
theorem unflatten_arity_witness :
    tree_unflatten (.node .listTy .unit (tdlOf [.leaf, .leaf, .leaf]))
      [aint 1, aint 2] = .error (.arityMismatch 3 2) :=
  (unflatten_arity (.node .listTy .unit (tdlOf [.leaf, .leaf, .leaf]))
    [aint 1, aint 2]).1.mpr (by decide)

/-- C5: the distinguished empty marker is a Node with zero children,
never a Leaf: it flattens to no leaves and a zero-child TreeDef node, and
the sequence `[EMPTY, EMPTY, EMPTY]` flattens to zero leaves with three
zero-child nodes in its TreeDef. -/
theorem empty_marker_semantics :
    tree_flatten PyVal.none = ([], .node .noneTy .unit .nil) ∧
    tree_flatten (.list (plist [.none, .none, .none])) =
      ([], .node .listTy .unit (tdlOf
        [ .node .noneTy .unit .nil
        , .node .noneTy .unit .nil
        , .node .noneTy .unit .nil ])) :=
  ⟨rfl, rfl⟩

/-- C6: for a tree conforming to `outer_def` whose outer leaves all
conform to a common `inner_def`, transpose succeeds with a value
conforming to `inner_def` at the top level whose leaves each conform to
`outer_def` (one per inner leaf position, each gathering one leaf per
outer position, in outer traversal order); in particular the notebook's
input `[{t: 1, obs: 3}, {t: 2, obs: 4}]` (outer shape an ordered pair,
inner shape a mapping with keys `{t, obs}`) transposes to the mapping
binding `t` to `[1, 2]` and `obs` to `[3, 4]`. -/
theorem transpose_contract (outerDef innerDef : TreeDef) (tree : PyVal)
    (subs : List PyVal)
    (hov : validTd outerDef = true) (hiv : validTd innerDef = true)
    (hsubs : flattenUpTo outerDef tree = some subs)
    (hall : ∀ s ∈ subs, tree_structure s = innerDef) :
    (∃ w outs, tree_transpose outerDef innerDef tree = .ok w ∧
      flattenUpTo innerDef w = some outs ∧
      outs.length = numLeaves innerDef ∧
      ∀ o ∈ outs, ∃ col, flattenUpTo outerDef o = some col ∧
        col.length = numLeaves outerDef) ∧
    tree_transpose exOuterDef exInnerDef exEpisode = .ok exTransposed := by
  refine ⟨?_, rfl⟩
  have hfind : subs.find? (fun s => !(tree_structure s == innerDef)) = Option.none := by
    rw [List.find?_eq_none]
    intro s hs
    simp [hall s hs]
  have hsublen : subs.length = numLeaves outerDef :=
    flattenUpTo_length outerDef tree subs hsubs
  have hcol : ∀ j : Nat,
      (column j (subs.map tree_leaves)).length = numLeaves outerDef := by
    intro j
    simp [column, hsublen]
  have hok : ∀ j ∈ List.range (numLeaves innerDef),
      tree_unflatten outerDef (column j (subs.map tree_leaves)) =
        .ok ((build outerDef (column j (subs.map tree_leaves))).1) := by
    intro j _
    exact tree_unflatten_of_length _ _ (hcol j)
  have hokl := okList_map (List.range (numLeaves innerDef))
    (fun j => tree_unflatten outerDef (column j (subs.map tree_leaves)))
    (fun j => (build outerDef (column j (subs.map tree_leaves))).1) hok
  have houtlen : ((List.range (numLeaves innerDef)).map
      (fun j => (build outerDef (column j (subs.map tree_leaves))).1)).length
      = numLeaves innerDef := by simp
  obtain ⟨w, hw, hfw⟩ := unflatten_flattenUpTo innerDef _ hiv houtlen
  refine ⟨w, (List.range (numLeaves innerDef)).map
    (fun j => (build outerDef (column j (subs.map tree_leaves))).1),
    ?_, hfw, by simp, ?_⟩
  · simp only [tree_transpose, hsubs, hfind, hokl, hw]
  · intro o ho
    simp only [List.mem_map, List.mem_range] at ho
    obtain ⟨j, hj, rfl⟩ := ho
    obtain ⟨w2, hw2, hfw2⟩ :=
      unflatten_flattenUpTo outerDef (column j (subs.map tree_leaves)) hov (hcol j)
    rw [tree_unflatten_of_length outerDef (column j (subs.map tree_leaves)) (hcol j)] at hw2
    have hww : (build outerDef (column j (subs.map tree_leaves))).1 = w2 := by
      injection hw2
    rw [← hww] at hfw2
    exact ⟨column j (subs.map tree_leaves), hfw2, hcol j⟩

/-- C6 witness: the transpose contract instantiated at the notebook's
example (outer shape = ordered pair of leaves, inner shape = mapping with
keys `{t, obs}`), with every hypothesis discharged by evaluation. -/
theorem transpose_contract_witness :
    (∃ w outs, tree_transpose exOuterDef exInnerDef exEpisode = .ok w ∧
      flattenUpTo exInnerDef w = some outs ∧
      outs.length = numLeaves exInnerDef ∧
      ∀ o ∈ outs, ∃ col, flattenUpTo exOuterDef o = some col ∧
        col.length = numLeaves exOuterDef) ∧
    tree_transpose exOuterDef exInnerDef exEpisode = .ok exTransposed :=
  transpose_contract exOuterDef exInnerDef exEpisode
    [ .dict (pdict [("t", aint 1), ("obs", aint 3)])
    , .dict (pdict [("t", aint 2), ("obs", aint 4)]) ]
    (by decide) (by decide) (by decide) (by decide)

/-- C7: a registered container type with 3 children and non-child
auxiliary data (a tag playing the role of the label) flattens an instance
to exactly its three children as leaves — the auxiliary data never
appears in the leaf sequence — and unflattening that TreeDef with those
leaves reconstructs an equal record. -/
theorem custom_round_trip (i : Nat) (s : String) (x y z : Atom) :
    tree_flatten (.custom i (.tag s) (plist [.atom x, .atom y, .atom z])) =
      ([.atom x, .atom y, .atom z],
        .node (.customTy i) (.tag s) (tdlOf [.leaf, .leaf, .leaf])) ∧
    tree_unflatten (.node (.customTy i) (.tag s) (tdlOf [.leaf, .leaf, .leaf]))
        [.atom x, .atom y, .atom z] =
      .ok (.custom i (.tag s) (plist [.atom x, .atom y, .atom z])) :=
  ⟨rfl, rfl⟩

/-- C8: a value whose runtime type has no registry entry (and which is
not the empty marker) is a Leaf: flatten returns the singleton leaf
sequence holding exactly that value and the leaf-placeholder TreeDef. -/
theorem unregistered_is_leaf (a : Atom) :
    tree_flatten (.atom a) = ([.atom a], .leaf) :=
  rfl

/-- C9: an instance of a tuple subclass (a NamedTuple) flattens as a
sequence node whose children are all of its fields in declaration order —
so every field, including a non-array name string, appears in the leaf
sequence — with no field placed in auxiliary data; concretely the
notebook's two `MyOtherContainer` records flatten to
`['Alice', 1, 2, 3, 'Bob', 4, 5, 6]`. -/
theorem namedtuple_fields_are_children (cls : String) (fs : PyList) :
    (tree_leaves (.ntuple cls fs) = ((listOfP fs).map tree_leaves).flatten ∧
     tree_structure (.ntuple cls fs) =
       .node (.ntupleTy cls) .unit (tdlOf ((listOfP fs).map tree_structure))) ∧
    tree_leaves (.list (plist
      [ .ntuple "MyOtherContainer" (plist [astr "Alice", aint 1, aint 2, aint 3])
      , .ntuple "MyOtherContainer" (plist [astr "Bob", aint 4, aint 5, aint 6]) ])) =
      [astr "Alice", aint 1, aint 2, aint 3, astr "Bob", aint 4, aint 5, aint 6] := by
  refine ⟨⟨?_, ?_⟩, rfl⟩
  · simp only [tree_leaves, tree_flatten, canon, flattenC, flattenCL_canonL_fst fs]
  · simp only [tree_structure, tree_flatten, canon, flattenC, flattenCL_canonL_snd fs]

/-- C10: a registered built-in container with zero children contributes
no leaves and no leaf-placeholders, appearing as a zero-child node in the
TreeDef; flattening `(1, (2, 3), ())` therefore yields exactly the leaves
`[1, 2, 3]` with the empty tuple recorded as a zero-child node. -/
theorem empty_container_no_leaves :
    tree_flatten (.tuple .nil) = ([], .node .tupleTy .unit .nil) ∧
    tree_flatten exNested =
      ([aint 1, aint 2, aint 3],
        .node .tupleTy .unit (tdlOf
          [ .leaf
          , .node .tupleTy .unit (tdlOf [.leaf, .leaf])
          , .node .tupleTy .unit .nil ])) :=
  ⟨rfl, rfl⟩
